import Mathlib

/-!
Verification of the snippet-expansion engine and its manager from this
repository.  The manager (`SnippetManager`) and `LanguageProvider.handles`
are embedded from their TypeScript sources; the snippet parser, marker
tree and session are not part of the source tree (only their callers
are), so those definitions are modelled from the specification and are
marked as such in their doc comments.

Strings are manipulated as `List Char` throughout, so that offset and
concatenation reasoning can reuse the list lemmas; `parse` converts from
`String` at the boundary.
-/

namespace Coc

/-- Modelled from the spec: a `Transform` is "a regular expression plus an
ordered list of format fragments plus matching flags".  It is kept
syntactic here (the raw regex source, format clause and flags); its
semantics lives in the external JavaScript regex engine, which is
modelled as an explicit `TransformEngine` parameter where needed. -/
structure Transform where
  regex : List Char
  format : List Char
  flags : List Char
deriving DecidableEq

/-- A transform engine gives meaning to a `Transform`: it maps the
resolved plain-text value of the owning marker to the transformed text.
The actual engine is the external JavaScript `RegExp` machinery, so
theorems quantify over it. -/
def TransformEngine : Type := Transform → List Char → List Char

/-- Modelled from the spec: the marker tree of a parsed snippet
(`Text`, `Placeholder` with index / children / choices / optional
transform, `Variable` with name / children / optional transform). -/
inductive Marker where
  | text (value : List Char)
  | placeholder (index : Nat) (children : List Marker)
      (choices : List (List Char)) (transform : Option Transform)
  | var (name : List Char) (children : List Marker)
      (transform : Option Transform)

mutual

/-- Modelled from the spec: `render()` — depth-first concatenation of leaf
text; for Placeholder/Variable, render of the children (or the first
choice when a choice list is present and the children are empty),
passed through the Transform when one is present. -/
def renderMarker (E : TransformEngine) : Marker → List Char
  | .text v => v
  | .placeholder _ children choices tr =>
      let base :=
        if children.isEmpty then
          (match choices with | c :: _ => c | [] => [])
        else renderMarkers E children
      (match tr with | some t => E t base | none => base)
  | .var _ children tr =>
      let base := renderMarkers E children
      (match tr with | some t => E t base | none => base)

/-- Render of a marker sequence: concatenation in tree order. -/
def renderMarkers (E : TransformEngine) : List Marker → List Char
  | [] => []
  | m :: ms => renderMarker E m ++ renderMarkers E ms

end

/-! ## Parser

Modelled from the spec §4.1: recursive descent over the literal syntax,
total, degrading irregular spans to `Text` markers.  Policy for
irregular input, from the spec: a `$` that does not begin any
recognised form stays a literal text character; a braced form whose
closing delimiter is never found degrades everything from the
unmatched `{` onward to a single `Text` marker holding the raw
characters. -/

/-- First character of a variable name: letter or underscore. -/
def isVarStart (c : Char) : Bool := c.isAlpha || c = '_'

/-- Subsequent character of a variable name: letter, digit or underscore. -/
def isVarChar (c : Char) : Bool := c.isAlphanum || c = '_'

/-- Longest digit prefix and the remaining input. -/
def takeDigits : List Char → List Char × List Char
  | [] => ([], [])
  | c :: rest =>
      if c.isDigit then
        let (ds, r) := takeDigits rest
        (c :: ds, r)
      else ([], c :: rest)

/-- Longest run of name characters and the remaining input. -/
def takeVarChars : List Char → List Char × List Char
  | [] => ([], [])
  | c :: rest =>
      if isVarChar c then
        let (ns, r) := takeVarChars rest
        (c :: ns, r)
      else ([], c :: rest)

/-- Longest variable name (start char then name chars) and the rest. -/
def takeName : List Char → List Char × List Char
  | [] => ([], [])
  | c :: rest =>
      if isVarStart c then
        let (ns, r) := takeVarChars rest
        (c :: ns, r)
      else ([], c :: rest)

/-- Numeric value of a digit string. -/
def digitsToNat (ds : List Char) : Nat :=
  ds.foldl (fun n c => n * 10 + (c.toNat - '0'.toNat)) 0

/-- Scan a choice-list body up to the first unescaped `|`; keeps the
escape sequences intact in the returned span.  `none` when no
unescaped `|` occurs (unterminated choice list). -/
def scanUntilBar : List Char → Option (List Char × List Char)
  | [] => none
  | c :: rest =>
    if c = '\\' then
      (match rest with
       | [] => none
       | c2 :: rest2 => (scanUntilBar rest2).map (fun p => ('\\' :: c2 :: p.1, p.2)))
    else if c = '|' then some ([], rest)
    else (scanUntilBar rest).map (fun p => (c :: p.1, p.2))

/-- Prepend a character to the first group of a split result. -/
def consHead (c : Char) : List (List Char) → List (List Char)
  | [] => [[c]]
  | g :: gs => (c :: g) :: gs

/-- Split a raw choice-list span on the unescaped commas, unescaping
`\,`, `\|` and `\\` to their literal characters. -/
def splitChoices : List Char → List (List Char)
  | [] => [[]]
  | '\\' :: c :: rest =>
      if c = ',' || c = '|' || c = '\\' then consHead c (splitChoices rest)
      else consHead '\\' (splitChoices (c :: rest))
  | ',' :: rest => [] :: splitChoices rest
  | c :: rest => consHead c (splitChoices rest)

/-- Scan a transform clause up to the first unescaped `/`, unescaping
`\/`; `none` when no unescaped `/` occurs. -/
def scanUntilSlash : List Char → Option (List Char × List Char)
  | [] => none
  | c :: rest =>
    if c = '\\' then
      (match rest with
       | [] => none
       | c2 :: rest2 =>
           if c2 = '/' then (scanUntilSlash rest2).map (fun p => ('/' :: p.1, p.2))
           else (scanUntilSlash rest2).map (fun p => ('\\' :: c2 :: p.1, p.2)))
    else if c = '/' then some ([], rest)
    else (scanUntilSlash rest).map (fun p => (c :: p.1, p.2))

/-- Scan up to the first `}` (transform flags); `none` when absent. -/
def scanUntilBrace : List Char → Option (List Char × List Char)
  | [] => none
  | c :: rest =>
    if c = '}' then some ([], rest)
    else (scanUntilBrace rest).map (fun p => (c :: p.1, p.2))

/-- Parse `<regex>/<format>/<flags>}` after the opening `/` of a
transform clause. -/
def parseTransform (cs : List Char) : Option (Transform × List Char) :=
  match scanUntilSlash cs with
  | none => none
  | some (rx, r1) =>
    match scanUntilSlash r1 with
    | none => none
    | some (fmt, r2) =>
      match scanUntilBrace r2 with
      | none => none
      | some (fl, r3) => some (⟨rx, fmt, fl⟩, r3)

/-- Pending literal characters become a `Text` marker (empty runs
produce nothing). -/
def flushText (acc : List Char) : List Marker :=
  if acc.isEmpty then [] else [.text acc]

mutual

/-- Main parse loop.  `inBrace` is true while parsing the default
children of a braced form, where an unescaped `}` stops the loop (it is
left in the remaining input for the caller).  `acc` accumulates pending
literal characters.  The fuel argument only drives termination; one
unit is spent per consumed character, so `input length + 1` is always
enough (proved below). -/
def parseLoop : Nat → Bool → List Char → List Char → List Marker × List Char
  | 0, _, acc, cs => (flushText acc, cs)
  | Nat.succ fuel, inBrace, acc, cs =>
    match cs with
    | [] => (flushText acc, [])
    | c :: rest =>
      if c = '\\' then
        (match rest with
         | [] => (flushText (acc ++ ['\\']), [])
         | c2 :: rest2 =>
             if c2 = '$' || c2 = '}' || c2 = '\\' then
               parseLoop fuel inBrace (acc ++ [c2]) rest2
             else
               parseLoop fuel inBrace (acc ++ ['\\']) (c2 :: rest2))
      else if c = '}' then
        (if inBrace then (flushText acc, '}' :: rest)
         else parseLoop fuel inBrace (acc ++ ['}']) rest)
      else if c = '$' then
        (match parseDollar fuel rest with
         | some (m, rest') =>
             let P := parseLoop fuel inBrace [] rest'
             (flushText acc ++ m :: P.1, P.2)
         | none => parseLoop fuel inBrace (acc ++ ['$']) rest)
      else parseLoop fuel inBrace (acc ++ [c]) rest

/-- Parse one construct after a `$`.  `none` means the `$` matches no
form and stays literal text; a `Text` result with empty remainder is
the unterminated-brace degradation. -/
def parseDollar : Nat → List Char → Option (Marker × List Char)
  | 0, _ => none
  | Nat.succ fuel, cs =>
    match cs with
    | [] => none
    | c :: rest =>
      if c = '{' then
        (match takeDigits rest with
         | (d :: ds, r1) =>
           (match r1 with
            | [] => none
            | c1 :: r2 =>
              if c1 = '}' then
                some (.placeholder (digitsToNat (d :: ds)) [] [] none, r2)
              else if c1 = ':' then
                (let P := parseLoop fuel true [] r2
                 match P.2 with
                 | c3 :: r3 =>
                     if c3 = '}' then
                       some (.placeholder (digitsToNat (d :: ds)) P.1 [] none, r3)
                     else some (.text ('$' :: '{' :: rest), [])
                 | [] => some (.text ('$' :: '{' :: rest), []))
              else if c1 = '|' then
                (match scanUntilBar r2 with
                 | some (raw, c3 :: r3) =>
                     if c3 = '}' then
                       some (.placeholder (digitsToNat (d :: ds)) [] (splitChoices raw) none, r3)
                     else none
                 | some (_, []) => none
                 | none => some (.text ('$' :: '{' :: rest), []))
              else if c1 = '/' then
                (match parseTransform r2 with
                 | some (t, r3) =>
                     some (.placeholder (digitsToNat (d :: ds)) [] [] (some t), r3)
                 | none => some (.text ('$' :: '{' :: rest), []))
              else none)
         | ([], _) =>
           (match takeName rest with
            | (n :: ns, r1) =>
              (match r1 with
               | [] => none
               | c1 :: r2 =>
                 if c1 = '}' then some (.var (n :: ns) [] none, r2)
                 else if c1 = ':' then
                   (let P := parseLoop fuel true [] r2
                    match P.2 with
                    | c3 :: r3 =>
                        if c3 = '}' then some (.var (n :: ns) P.1 none, r3)
                        else some (.text ('$' :: '{' :: rest), [])
                    | [] => some (.text ('$' :: '{' :: rest), []))
                 else if c1 = '/' then
                   (match parseTransform r2 with
                    | some (t, r3) => some (.var (n :: ns) [] (some t), r3)
                    | none => some (.text ('$' :: '{' :: rest), []))
                 else none)
            | ([], _) => none))
      else
        (match takeDigits cs with
         | (d :: ds, r) => some (.placeholder (digitsToNat (d :: ds)) [] [] none, r)
         | ([], _) =>
           (match takeName cs with
            | (n :: ns, r) => some (.var (n :: ns) [] none, r)
            | ([], _) => none))

end

mutual

/-- Whether a marker declares tabstop 0 anywhere in its subtree. -/
def markerHasZero : Marker → Bool
  | .text _ => false
  | .placeholder i children _ _ => i == 0 || listHasZero children
  | .var _ children _ => listHasZero children

/-- Whether any marker of the list declares tabstop 0. -/
def listHasZero : List Marker → Bool
  | [] => false
  | m :: ms => markerHasZero m || listHasZero ms

end

/-- Top-level marker parse of a character list; appends the implicit
final tabstop-0 placeholder when requested and absent. -/
def parseMarkers (cs : List Char) (insertFinalTabstop : Bool) : List Marker :=
  let ms := (parseLoop (cs.length + 1) false [] cs).1
  if insertFinalTabstop && !(listHasZero ms) then
    ms ++ [.placeholder 0 [] [] none]
  else ms

/-- A parsed snippet: the top-level marker sequence. -/
structure TextmateSnippet where
  children : List Marker

/-- Modelled from the spec: `parse(template, insertFinalTabstop) ->
Snippet`, the parser entry point (`SnippetParser.parse` in the source
tree, not part of the given sources). -/
def parse (template : String) (insertFinalTabstop : Bool) : TextmateSnippet :=
  ⟨parseMarkers template.data insertFinalTabstop⟩

/-- A character that is not `$`, `\` or `}`: parsed as plain literal
text by every branch of the loop. -/
def plainChar (c : Char) : Bool := !(c = '$' || c = '\\' || c = '}')

/-! ## Variable resolution

Modelled from the spec §4.2/§4.3: `resolveVariables(resolver)` asks the
resolver for a value for every Variable marker with empty children and
installs it as the variable content; variables with declared default
children keep them (recursively resolved). -/

/-- The Variable Resolver collaborator: a pure name lookup. -/
structure VariableResolver where
  resolve : List Char → Option (List Char)

mutual

/-- Resolve variables in one marker. -/
def resolveMarker (R : VariableResolver) : Marker → Marker
  | .text v => .text v
  | .placeholder i children choices tr =>
      .placeholder i (resolveMarkerList R children) choices tr
  | .var n children tr =>
      (match children with
       | [] =>
         (match R.resolve n with
          | some v => .var n [.text v] tr
          | none => .var n [] tr)
       | c :: cs => .var n (resolveMarkerList R (c :: cs)) tr)

/-- Resolve variables in a marker sequence. -/
def resolveMarkerList (R : VariableResolver) : List Marker → List Marker
  | [] => []
  | m :: ms => resolveMarker R m :: resolveMarkerList R ms

end

/-- `snippet.resolveVariables(resolver)` at the snippet level. -/
def TextmateSnippet.resolveVariables (s : TextmateSnippet) (R : VariableResolver) :
    TextmateSnippet :=
  ⟨resolveMarkerList R s.children⟩

/-! ## Session

Modelled from the spec §3 (Session state) and §4.4 (state machine).
The session is not part of the given sources (only the manager that
drives it is), so it is reconstructed from the specification here.
Stateful TypeScript methods become functions from session state to
session state. -/

mutual

/-- Tabstop indices declared by a marker (placeholders only, nested
ones included). -/
def markerIndices : Marker → List Nat
  | .text _ => []
  | .placeholder i children _ _ => i :: listIndices children
  | .var _ children _ => listIndices children

/-- Tabstop indices declared in a marker sequence. -/
def listIndices : List Marker → List Nat
  | [] => []
  | m :: ms => markerIndices m ++ listIndices ms

end

/-- Navigation order, modelled from the spec: "the ordered list of
distinct tabstop indices excluding 0 (navigation order), with 0
appended as the terminal stop". -/
def navOrder (ms : List Marker) : List Nat :=
  ((List.range ((listIndices ms).foldr max 0 + 1)).filter
    (fun i => decide (i ≠ 0) && (listIndices ms).contains i)) ++ [0]

/-- The transform attached to a marker, if any. -/
def markerTransform : Marker → Option Transform
  | .text _ => none
  | .placeholder _ _ _ tr => tr
  | .var _ _ tr => tr

/-- Apply an optional transform to a plain-text value. -/
def applyTransform (E : TransformEngine) : Option Transform → List Char → List Char
  | some t, v => E t v
  | none, v => v

/-- Replace the half-open span `[a, b)` of `s` with `t`. -/
def replaceRange (s : List Char) (a b : Nat) (t : List Char) : List Char :=
  s.take a ++ t ++ s.drop b

mutual

/-- Whether the subtree of a marker contains a Placeholder with
tabstop index `a` (a member of tabstop `a`'s Placeholder Group, which
the spec derives from the whole tree). -/
def markerHasMirror (a : Nat) : Marker → Bool
  | .text _ => false
  | .placeholder j children _ _ => j == a || listHasMirror a children
  | .var _ children _ => listHasMirror a children

/-- Whether a marker sequence contains a mirror of tabstop `a`. -/
def listHasMirror (a : Nat) : List Marker → Bool
  | [] => false
  | m :: ms => markerHasMirror a m || listHasMirror a ms

end

mutual

/-- Propagate the value `v` to every mirror of tabstop `a`, at any
nesting depth: each Placeholder with index `a` has its content replaced
by the plain text `v` (its own choices and transform are kept); all
other markers keep their shape and have their children updated. -/
def mirrorUpdateM (a : Nat) (v : List Char) : Marker → Marker
  | .text w => .text w
  | .placeholder j children choices tr =>
      if j = a then .placeholder j [.text v] choices tr
      else .placeholder j (mirrorUpdateL a v children) choices tr
  | .var n children tr => .var n (mirrorUpdateL a v children) tr

/-- `mirrorUpdateM` over a marker sequence. -/
def mirrorUpdateL (a : Nat) (v : List Char) : List Marker → List Marker
  | [] => []
  | m :: ms => mirrorUpdateM a v m :: mirrorUpdateL a v ms

end

mutual

/-- The rendered span of the canonical (first in document order) mirror
of tabstop `a`, walking the tree depth-first from base offset `off`.
The walk descends only into markers whose render is the concatenation
of their children's renders (no transform; for a placeholder, nonempty
children): a mirror inside an opaquely rendered container owns no span
of the output text, so it cannot be the edit target. -/
def canonicalSpanM (E : TransformEngine) (a : Nat) (off : Nat) :
    Marker → Option (Nat × Nat)
  | .text _ => none
  | .placeholder j children choices tr =>
      if j = a then
        some (off, off + (renderMarker E (.placeholder j children choices tr)).length)
      else if tr.isNone && !children.isEmpty then canonicalSpanL E a off children
      else none
  | .var _ children tr =>
      if tr.isNone then canonicalSpanL E a off children
      else none

/-- `canonicalSpanM` over a marker sequence. -/
def canonicalSpanL (E : TransformEngine) (a : Nat) (off : Nat) :
    List Marker → Option (Nat × Nat)
  | [] => none
  | m :: ms =>
      match canonicalSpanM E a off m with
      | some sp => some sp
      | none => canonicalSpanL E a (off + (renderMarker E m).length) ms

end

mutual

/-- The shape of the buffer between the user edit and the session's
write-backs: every marker contributes its old rendered span, except
the canonical mirror (the first mirror of `a` reached by the walk,
tracked by the `seen` flag), whose span holds the edited value `v`.
Descends exactly where `canonicalSpanM` does. -/
def preRenderM (E : TransformEngine) (a : Nat) (v : List Char) :
    Bool → Marker → List Char × Bool
  | seen, .text w => (w, seen)
  | seen, .placeholder j children choices tr =>
      if j = a then
        (if seen then (renderMarker E (.placeholder j children choices tr), true)
         else (v, true))
      else if tr.isNone && !children.isEmpty then preRenderL E a v seen children
      else (renderMarker E (.placeholder j children choices tr), seen)
  | seen, .var n children tr =>
      if tr.isNone then preRenderL E a v seen children
      else (renderMarker E (.var n children tr), seen)

/-- `preRenderM` over a marker sequence, threading the `seen` flag. -/
def preRenderL (E : TransformEngine) (a : Nat) (v : List Char) :
    Bool → List Marker → List Char × Bool
  | seen, [] => ([], seen)
  | seen, m :: ms =>
      let p := preRenderM E a v seen m
      let q := preRenderL E a v p.2 ms
      (p.1 ++ q.1, q.2)

end

mutual

/-- The write-back pass, modelled from the spec §4.4: walk the tree
depth-first over the user-edited buffer, offsets recomputed as the walk
advances.  Each mirror of tabstop `a` gets a separate edit request
replacing its current span with the propagated value passed through its
own transform (for the canonical — first — mirror that span currently
holds the user-edited text `v`); spans of mirror-free subtrees are kept
as they stand in the buffer; an opaquely rendered container holding a
mirror is re-rendered wholesale, as its interior owns no span of the
output.  Returns the rebuilt region, the unconsumed buffer and the
updated `seen` flag. -/
def writeBackM (E : TransformEngine) (a : Nat) (v : List Char) :
    Bool → Marker → List Char → List Char × List Char × Bool
  | seen, .text w, buf => (buf.take w.length, buf.drop w.length, seen)
  | seen, .placeholder j children choices tr, buf =>
      if j = a then
        (if seen then
          (applyTransform E tr v,
           buf.drop (renderMarker E (.placeholder j children choices tr)).length, true)
         else (applyTransform E tr v, buf.drop v.length, true))
      else if tr.isNone && !children.isEmpty then writeBackL E a v seen children buf
      else if listHasMirror a children then
        (renderMarker E (mirrorUpdateM a v (.placeholder j children choices tr)),
         buf.drop (renderMarker E (.placeholder j children choices tr)).length, seen)
      else
        (buf.take (renderMarker E (.placeholder j children choices tr)).length,
         buf.drop (renderMarker E (.placeholder j children choices tr)).length, seen)
  | seen, .var n children tr, buf =>
      if tr.isNone then writeBackL E a v seen children buf
      else if listHasMirror a children then
        (renderMarker E (mirrorUpdateM a v (.var n children tr)),
         buf.drop (renderMarker E (.var n children tr)).length, seen)
      else
        (buf.take (renderMarker E (.var n children tr)).length,
         buf.drop (renderMarker E (.var n children tr)).length, seen)

/-- `writeBackM` over a marker sequence, threading buffer and flag. -/
def writeBackL (E : TransformEngine) (a : Nat) (v : List Char) :
    Bool → List Marker → List Char → List Char × List Char × Bool
  | seen, [], buf => ([], buf, seen)
  | seen, m :: ms, buf =>
      let p := writeBackM E a v seen m buf
      let q := writeBackL E a v p.2.2 ms p.2.1
      (p.1 ++ q.1, q.2.1, q.2.2)

end

mutual

/-- Checks that every mirror of tabstop `a` in the subtree carries the
propagated content `v` (its children are exactly the plain text `v`). -/
def mirrorsSetM (a : Nat) (v : List Char) : Marker → Bool
  | .text _ => true
  | .placeholder j children _ _ =>
      if j = a then
        (match children with
         | [.text w] => w == v
         | _ => false)
      else mirrorsSetL a v children
  | .var _ children _ => mirrorsSetL a v children

/-- `mirrorsSetM` over a marker sequence. -/
def mirrorsSetL (a : Nat) (v : List Char) : List Marker → Bool
  | [] => true
  | m :: ms => mirrorsSetM a v m && mirrorsSetL a v ms

end

/-- One content change of a text-change notification: the replaced
half-open range and the inserted text. -/
structure TextChange where
  startPos : Nat
  endPos : Nat
  newText : List Char

/-- Modelled from the spec: the session state — buffer identifier,
marker tree, navigation order, active tabstop, activity flag, and the
text requested for insertion (the snippet region of the buffer). -/
structure SnippetSession where
  bufnr : Nat
  snippet : List Marker
  navIdx : List Nat
  current : Option Nat
  isActive : Bool
  text : List Char

/-- Modelled from the spec §4.4 `start`: parse the template, render,
request insertion; become active at the lowest-index tabstop (0 only
if no other exists) when the tree has tabstops, else insert the text
and stay inactive. -/
def SnippetSession.start (E : TransformEngine) (bufnr : Nat) (template : String) :
    SnippetSession × Bool :=
  let ms := (parse template false).children
  let txt := renderMarkers E ms
  if (listIndices ms).isEmpty then
    ({ bufnr := bufnr, snippet := ms, navIdx := navOrder ms, current := none,
       isActive := false, text := txt }, false)
  else
    ({ bufnr := bufnr, snippet := ms, navIdx := navOrder ms,
       current := some (navOrder ms).headI, isActive := true, text := txt }, true)

/-- Modelled from the spec §4.4 `deactivate`/`cancel`: transition to
Inactive immediately; the already-inserted text is left untouched. -/
def SnippetSession.deactivate (s : SnippetSession) : SnippetSession :=
  { s with isActive := false }

/-- Modelled from the spec §4.4 `synchronizeUpdatedPlaceholders`: the
canonical (first-declared) mirror of the active tabstop is located in
the rendered text; when the edit lies wholly within its rendered span,
that mirror's content becomes the edited span text and that plain-text
value is written, through each mirror's own transform, into every
other mirror of its Placeholder Group (derived from the whole tree),
each via a separate edit request with all downstream offsets
recomputed; otherwise the session fails safe and deactivates without
touching the text. -/
def SnippetSession.synchronizeUpdatedPlaceholders (E : TransformEngine)
    (s : SnippetSession) (c : TextChange) : SnippetSession :=
  if s.isActive = false then s else
  match s.current with
  | none => s
  | some a =>
    match canonicalSpanL E a 0 s.snippet with
    | none => s.deactivate
    | some (st, en) =>
      if st ≤ c.startPos ∧ c.startPos ≤ c.endPos ∧ c.endPos ≤ en then
        let newVal := replaceRange ((s.text.drop st).take (en - st))
          (c.startPos - st) (c.endPos - st) c.newText
        let buf1 := replaceRange s.text c.startPos c.endPos c.newText
        let wb := writeBackL E a newVal false s.snippet buf1
        { s with snippet := mirrorUpdateL a newVal s.snippet,
                 text := wb.1 ++ wb.2.1 }
      else s.deactivate

/-- Modelled from the spec §4.4 `nextPlaceholder`: advance through the
navigation order; reaching the terminal tabstop 0 deactivates. -/
def SnippetSession.nextPlaceholder (s : SnippetSession) : SnippetSession :=
  if s.isActive = false then s else
  match s.current with
  | none => s
  | some i =>
    match s.navIdx.dropWhile (fun j => decide (j ≠ i)) with
    | _ :: j :: _ =>
        if j = 0 then { s with current := some 0, isActive := false }
        else { s with current := some j }
    | _ => s

/-- Modelled from the spec §4.4 `previousPlaceholder`: retreat through
the navigation order; moving before the first tabstop is a no-op. -/
def SnippetSession.previousPlaceholder (s : SnippetSession) : SnippetSession :=
  if s.isActive = false then s else
  match s.current with
  | none => s
  | some i =>
    match (s.navIdx.takeWhile (fun j => decide (j ≠ i))).getLast? with
    | some j => { s with current := some j }
    | none => s

/-! ## Manager

Embedded from the given source (`SnippetManager`): the session
registry is a `Map<number, SnippetSession>`, modelled as an
association list with unique keys; `Map.get`/`Map.set` become
`lookupSession`/`setSession`. -/

/-- `Map.get`: the session bound to a buffer number, if any. -/
def lookupSession : List (Nat × SnippetSession) → Nat → Option SnippetSession
  | [], _ => none
  | (k, v) :: rest, b => if k = b then some v else lookupSession rest b

/-- `Map.set`: bind a buffer number to a session, replacing any
previous binding. -/
def setSession : List (Nat × SnippetSession) → Nat → SnippetSession →
    List (Nat × SnippetSession)
  | [], b, s => [(b, s)]
  | (k, v) :: rest, b, s =>
      if k = b then (b, s) :: rest else (k, v) :: setSession rest b s

/-- The manager state: its `sessionMap` registry. -/
structure SnippetManager where
  sessionMap : List (Nat × SnippetSession)

/-- `SnippetManager.getSession(bufnr)`. -/
def SnippetManager.getSession (st : SnippetManager) (bufnr : Nat) :
    Option SnippetSession :=
  lookupSession st.sessionMap bufnr

/-- `SnippetManager.insertSnippet`, embedded from the source: reuse the
buffer's session when one exists (in TypeScript the same object is
restarted in place, so the registry entry reflects the restarted
state), else create a fresh one; `start` it; register it under the
buffer number when it came up active.  When `start` is not active and
no session pre-existed, the fresh session is dropped (its cancel hook
is disposed) and the registry is unchanged. -/
def SnippetManager.insertSnippet (E : TransformEngine) (st : SnippetManager)
    (bufnr : Nat) (snippet : String) : SnippetManager × Bool :=
  let started := SnippetSession.start E bufnr snippet
  if started.2 then
    (⟨setSession st.sessionMap bufnr started.1⟩, true)
  else
    match st.getSession bufnr with
    | some _ => (⟨setSession st.sessionMap bufnr started.1⟩, false)
    | none => (st, false)

/-- The `workspace.onDidChangeTextDocument` handler, embedded from the
source: resolve the event's document to a buffer number (`none` when
the workspace has no document for the uri); when that buffer has a
session and it is active, forward exactly `contentChanges[0]` to its
`synchronizeUpdatedPlaceholders`; otherwise do nothing.  The returned
list is the list of changes forwarded to a session (in TypeScript an
empty `contentChanges` would forward an undefined value; no change
reaches the session either way). -/
def SnippetManager.onDidChangeTextDocument (E : TransformEngine)
    (st : SnippetManager) (docBufnr : Option Nat)
    (contentChanges : List TextChange) : SnippetManager × List TextChange :=
  match docBufnr with
  | none => (st, [])
  | some b =>
    match st.getSession b with
    | some s =>
        if s.isActive then
          (match contentChanges.head? with
           | some c =>
               (⟨setSession st.sessionMap b
                  (s.synchronizeUpdatedPlaceholders E c)⟩, [c])
           | none => (st, []))
        else (st, [])
    | none => (st, [])

/-- `SnippetManager.cancel`, embedded from the source: deactivate the
current buffer's session when there is one (the session object is
mutated in place, so the registry entry reflects the deactivated
state). -/
def SnippetManager.cancel (st : SnippetManager) (currentBufnr : Nat) :
    SnippetManager :=
  match st.getSession currentBufnr with
  | some s => ⟨setSession st.sessionMap currentBufnr s.deactivate⟩
  | none => st

/-- `SnippetManager.resolveSnippet`, embedded from the source: parse the
body with `insertFinalTabstop` set to `true`, then run exactly one
variable-resolution pass over the result. -/
def SnippetManager.resolveSnippet (R : VariableResolver) (body : String) :
    TextmateSnippet :=
  (parse body true).resolveVariables R

/-- The identity transform engine, used to instantiate theorems on
concrete transform-free snippets. -/
def idEngine : TransformEngine := fun _ v => v

/-! ## LanguageProvider.handles

Embedded from `src/typescript-service/languageProvider.ts`.  The regex
`/ts(x)?$/` matches a string exactly when it ends in `ts` or `tsx`
(the match is anchored only at the end, so no dot or extension
boundary is required); same for `/js(x)?$/`. -/

/-- `/ts(x)?$/.test(fsPath)`. -/
def tsTest (p : List Char) : Bool :=
  List.isSuffixOf "ts".data p || List.isSuffixOf "tsx".data p

/-- `/js(x)?$/.test(fsPath)`. -/
def jsTest (p : List Char) : Bool :=
  List.isSuffixOf "js".data p || List.isSuffixOf "jsx".data p

/-- Node's `path.basename` (posix): trailing separators are stripped,
then the part after the last separator is returned; an all-separator
path has basename `/`, the empty path has basename the empty string. -/
def nodeBasename (p : List Char) : List Char :=
  let stripped := (p.reverse.dropWhile (fun c => c = '/')).reverse
  if stripped.isEmpty then (if p.isEmpty then [] else ['/'])
  else (stripped.reverse.takeWhile (fun c => decide (c ≠ '/'))).reverse

/-- `LanguageProvider.handles(resource)`, embedded from the source.
`descId` is `description.id`, `configFile` is `description.configFile`,
`bufferSync` stands for `bufferSyncSupport.handles(resource)`. -/
def handles (descId configFile : List Char) (bufferSync : Bool)
    (fsPath : List Char) : Bool :=
  if descId = "typescript".data ∧ tsTest fsPath = true then true
  else if descId = "javascript".data ∧ jsTest fsPath = true then true
  else if bufferSync then true
  else
    let base := nodeBasename fsPath
    !base.isEmpty && base == configFile

/-- Concrete example session: `$\x7b1:foo\x7d and $\x7b1:foo\x7d`
started in buffer 1 with the identity engine. -/
def exSession : SnippetSession :=
  (SnippetSession.start idEngine 1 "$\x7b1:foo\x7d and $\x7b1:foo\x7d").1

/-- Concrete example edit: replace the canonical mirror span `[0, 3)`
(the first `foo`) with `bar`. -/
def exChange : TextChange := ⟨0, 3, "bar".data⟩

/-- The example session after synchronizing the example edit. -/
def exSynced : SnippetSession :=
  exSession.synchronizeUpdatedPlaceholders idEngine exChange

/-- Concrete nested-mirror example session:
`$\x7b1:foo\x7d$\x7b2:x$\x7b1:foo\x7d\x7d` — the second mirror of
tabstop 1 sits inside the default content of tabstop 2. -/
def ex2Session : SnippetSession :=
  (SnippetSession.start idEngine 1 "$\x7b1:foo\x7d$\x7b2:x$\x7b1:foo\x7d\x7d").1

/-- Edit for the nested example: replace the canonical span `[0, 3)`
(the first `foo`) with `bar`. -/
def ex2Change : TextChange := ⟨0, 3, "bar".data⟩

/-- The nested example session after synchronizing the edit. -/
def ex2Synced : SnippetSession :=
  ex2Session.synchronizeUpdatedPlaceholders idEngine ex2Change

/-! ## Parser lemmas: the loop consumes its input -/

theorem takeDigits_rest_le (cs : List Char) : (takeDigits cs).2.length ≤ cs.length := by
  induction cs with
  | nil => simp [takeDigits]
  | cons c rest ih =>
      by_cases h : c.isDigit
      · simp only [takeDigits, h, if_true]
        simpa using Nat.le_trans ih (Nat.le_succ _)
      · simp [takeDigits, h]

theorem takeVarChars_rest_le (cs : List Char) : (takeVarChars cs).2.length ≤ cs.length := by
  induction cs with
  | nil => simp [takeVarChars]
  | cons c rest ih =>
      by_cases h : isVarChar c
      · simp only [takeVarChars, h, if_true]
        simpa using Nat.le_trans ih (Nat.le_succ _)
      · simp [takeVarChars, h]

theorem takeName_rest_le (cs : List Char) : (takeName cs).2.length ≤ cs.length := by
  cases cs with
  | nil => simp [takeName]
  | cons c rest =>
      by_cases h : isVarStart c
      · simp only [takeName, h, if_true]
        simpa using Nat.le_trans (takeVarChars_rest_le rest) (Nat.le_succ _)
      · simp [takeName, h]

theorem scanUntilBar_rest_le :
    ∀ cs : List Char, ∀ p, scanUntilBar cs = some p → p.2.length ≤ cs.length := by
  intro cs
  induction cs using scanUntilBar.induct with
  | case1 => intro p h; rw [scanUntilBar.eq_def] at h; simp at h
  | case2 => intro p h; rw [scanUntilBar.eq_def] at h; simp at h
  | case3 c rest ih =>
      intro p h
      rw [scanUntilBar.eq_def] at h
      simp at h
      obtain ⟨q1, q2, hs, hq⟩ := h
      have := ih (q1, q2) hs
      rw [← hq]
      simp at this ⊢
      omega
  | case4 rest hb =>
      intro p h
      rw [scanUntilBar.eq_def] at h
      simp at h
      rw [← h]
      simp
  | case5 c rest h1 h2 ih =>
      intro p h
      rw [scanUntilBar.eq_def] at h
      simp [h1, h2] at h
      obtain ⟨q1, q2, hs, hq⟩ := h
      have := ih (q1, q2) hs
      rw [← hq]
      simp at this ⊢
      omega

theorem scanUntilSlash_rest_le :
    ∀ cs : List Char, ∀ p, scanUntilSlash cs = some p → p.2.length ≤ cs.length := by
  intro cs
  induction cs using scanUntilSlash.induct with
  | case1 => intro p h; rw [scanUntilSlash.eq_def] at h; simp at h
  | case2 => intro p h; rw [scanUntilSlash.eq_def] at h; simp at h
  | case3 rest ih =>
      intro p h
      rw [scanUntilSlash.eq_def] at h
      simp at h
      obtain ⟨q1, q2, hs, hq⟩ := h
      have := ih (q1, q2) hs
      rw [← hq]
      simp at this ⊢
      omega
  | case4 c rest hc ih =>
      intro p h
      rw [scanUntilSlash.eq_def] at h
      simp [hc] at h
      obtain ⟨q1, q2, hs, hq⟩ := h
      have := ih (q1, q2) hs
      rw [← hq]
      simp at this ⊢
      omega
  | case5 rest hb =>
      intro p h
      rw [scanUntilSlash.eq_def] at h
      simp at h
      rw [← h]
      simp
  | case6 c rest h1 h2 ih =>
      intro p h
      rw [scanUntilSlash.eq_def] at h
      simp [h1, h2] at h
      obtain ⟨q1, q2, hs, hq⟩ := h
      have := ih (q1, q2) hs
      rw [← hq]
      simp at this ⊢
      omega

theorem scanUntilBrace_rest_le :
    ∀ cs : List Char, ∀ p, scanUntilBrace cs = some p → p.2.length ≤ cs.length := by
  intro cs
  induction cs with
  | nil => intro p h; rw [scanUntilBrace.eq_def] at h; simp at h
  | cons c rest ih =>
      intro p h
      rw [scanUntilBrace.eq_def] at h
      by_cases hc : c = '}'
      · simp [hc] at h
        rw [← h]
        simp
      · simp [hc] at h
        obtain ⟨q1, q2, hs, hq⟩ := h
        have := ih (q1, q2) hs
        rw [← hq]
        simp at this ⊢
        omega

theorem parseTransform_rest_le :
    ∀ cs : List Char, ∀ p, parseTransform cs = some p → p.2.length ≤ cs.length := by
  intro cs p h
  unfold parseTransform at h
  cases h1 : scanUntilSlash cs with
  | none => rw [h1] at h; simp at h
  | some q1 =>
      rw [h1] at h
      cases h2 : scanUntilSlash q1.2 with
      | none => simp [h2] at h
      | some q2 =>
          cases h3 : scanUntilBrace q2.2 with
          | none => simp [h2, h3] at h
          | some q3 =>
              simp [h2, h3] at h
              have b1 := scanUntilSlash_rest_le cs q1 h1
              have b2 := scanUntilSlash_rest_le q1.2 q2 h2
              have b3 := scanUntilBrace_rest_le q2.2 q3 h3
              rw [← h]
              simp at b1 b2 b3 ⊢
              omega

theorem parse_rest_length :
    ∀ fuel : Nat,
      (∀ inBrace acc cs, (parseLoop fuel inBrace acc cs).2.length ≤ cs.length) ∧
      (∀ cs p, parseDollar fuel cs = some p → p.2.length ≤ cs.length) := by
  intro fuel
  induction fuel with
  | zero =>
      constructor
      · intro inBrace acc cs
        rw [parseLoop.eq_def]
      · intro cs p h
        rw [parseDollar.eq_def] at h
        simp at h
  | succ fuel ih =>
      obtain ⟨ihL, ihD⟩ := ih
      constructor
      · intro inBrace acc cs
        rw [parseLoop.eq_def]
        cases cs with
        | nil => simp
        | cons c rest =>
          by_cases h1 : c = '\\'
          · simp only [h1]
            cases rest with
            | nil => simp
            | cons c2 rest2 =>
                by_cases h2 : (c2 = '$' || c2 = '}' || c2 = '\\') = true
                · simp only [h2, if_pos rfl]
                  have := ihL inBrace (acc ++ [c2]) rest2
                  simp at this ⊢
                  omega
                · simp only [h2]
                  simp only [Bool.false_eq_true, if_false]
                  have := ihL inBrace (acc ++ ['\\']) (c2 :: rest2)
                  simp at this ⊢
                  omega
          · by_cases h2 : c = '}'
            · simp only [h1, h2]
              cases inBrace with
              | true => simp
              | false =>
                  simp only [Bool.false_eq_true, if_false]
                  have := ihL false (acc ++ ['}']) rest
                  simp at this ⊢
                  omega
            · by_cases h3 : c = '$'
              · simp only [h1, h2, h3]
                cases hd : parseDollar fuel rest with
                | none =>
                    simp only [hd]
                    have := ihL inBrace (acc ++ ['$']) rest
                    simp at this ⊢
                    omega
                | some q =>
                    simp only [hd]
                    have hb := ihD rest q hd
                    have hl := ihL inBrace [] q.2
                    simp at hb hl ⊢
                    omega
              · simp only [h1, h2, h3]
                have := ihL inBrace (acc ++ [c]) rest
                simp at this ⊢
                omega
      · intro cs p h
        rw [parseDollar.eq_def] at h
        cases cs with
        | nil => simp at h
        | cons c rest =>
          by_cases h1 : c = '{'
          · simp only [h1] at h
            cases ht : takeDigits rest with
            | mk ds r1 =>
              rw [ht] at h
              have hd1 : r1.length ≤ rest.length := by
                have := takeDigits_rest_le rest
                rw [ht] at this
                exact this
              cases ds with
              | cons d ds2 =>
                cases r1 with
                | nil => simp at h
                | cons c1 r2 =>
                  simp only [List.length_cons] at hd1
                  by_cases hc1 : c1 = '}'
                  · simp only [hc1] at h
                    simp at h
                    rw [← h]
                    simp
                    omega
                  · by_cases hc2 : c1 = ':'
                    · simp only [hc1, hc2] at h
                      have hpl := ihL true [] r2
                      cases hp : (parseLoop fuel true [] r2).2 with
                      | nil =>
                          rw [hp] at h
                          simp at h
                          rw [← h]
                          simp
                      | cons c3 r3 =>
                          rw [hp] at h
                          rw [hp] at hpl
                          simp only [List.length_cons] at hpl
                          by_cases hc3 : c3 = '}'
                          · simp only [hc3] at h
                            simp at h
                            rw [← h]
                            simp
                            omega
                          · simp only [hc3] at h
                            simp only [if_false] at h
                            simp at h
                            rw [← h]
                            simp
                    · by_cases hc3 : c1 = '|'
                      · simp only [hc1, hc2, hc3] at h
                        cases hs : scanUntilBar r2 with
                        | none =>
                            rw [hs] at h
                            simp at h
                            rw [← h]
                            simp
                        | some q =>
                            rw [hs] at h
                            have hql : q.2.length ≤ r2.length := scanUntilBar_rest_le r2 q hs
                            obtain ⟨raw, rr⟩ := q
                            cases rr with
                            | nil => simp at h
                            | cons c4 r4 =>
                                simp only [List.length_cons] at hql
                                by_cases hc4 : c4 = '}'
                                · simp only [hc4] at h
                                  simp at h
                                  rw [← h]
                                  simp
                                  omega
                                · simp only [hc4] at h
                                  simp at h
                      · by_cases hc4 : c1 = '/'
                        · simp only [hc1, hc2, hc3, hc4] at h
                          cases hs : parseTransform r2 with
                          | none =>
                              rw [hs] at h
                              simp at h
                              rw [← h]
                              simp
                          | some q =>
                              rw [hs] at h
                              have hql : q.2.length ≤ r2.length := parseTransform_rest_le r2 q hs
                              simp at h
                              rw [← h]
                              simp at hql ⊢
                              omega
                        · simp only [hc1, hc2, hc3, hc4] at h
                          simp at h
              | nil =>
                cases hn : takeName rest with
                | mk ns r1n =>
                  rw [hn] at h
                  have hn1 : r1n.length ≤ rest.length := by
                    have := takeName_rest_le rest
                    rw [hn] at this
                    exact this
                  cases ns with
                  | nil => simp at h
                  | cons n ns2 =>
                    cases r1n with
                    | nil => simp at h
                    | cons c1 r2 =>
                      simp only [List.length_cons] at hn1
                      by_cases hc1 : c1 = '}'
                      · simp only [hc1] at h
                        simp at h
                        rw [← h]
                        simp
                        omega
                      · by_cases hc2 : c1 = ':'
                        · simp only [hc1, hc2] at h
                          have hpl := ihL true [] r2
                          cases hp : (parseLoop fuel true [] r2).2 with
                          | nil =>
                              rw [hp] at h
                              simp at h
                              rw [← h]
                              simp
                          | cons c3 r3 =>
                              rw [hp] at h
                              rw [hp] at hpl
                              simp only [List.length_cons] at hpl
                              by_cases hc3 : c3 = '}'
                              · simp only [hc3] at h
                                simp at h
                                rw [← h]
                                simp
                                omega
                              · simp only [hc3] at h
                                simp only [if_false] at h
                                simp at h
                                rw [← h]
                                simp
                        · by_cases hc3 : c1 = '/'
                          · simp only [hc1, hc2, hc3] at h
                            cases hs : parseTransform r2 with
                            | none =>
                                rw [hs] at h
                                simp at h
                                rw [← h]
                                simp
                            | some q =>
                                rw [hs] at h
                                have hql : q.2.length ≤ r2.length := parseTransform_rest_le r2 q hs
                                simp at h
                                rw [← h]
                                simp at hql ⊢
                                omega
                          · simp only [hc1, hc2, hc3] at h
                            simp at h
          · simp only [h1] at h
            simp only [if_false] at h
            cases ht : takeDigits (c :: rest) with
            | mk ds r =>
              rw [ht] at h
              have hd1 : r.length ≤ (c :: rest).length := by
                have := takeDigits_rest_le (c :: rest)
                rw [ht] at this
                exact this
              cases ds with
              | cons d ds2 =>
                  simp at h
                  rw [← h]
                  exact hd1
              | nil =>
                cases hn : takeName (c :: rest) with
                | mk ns rn =>
                  rw [hn] at h
                  have hn1 : rn.length ≤ (c :: rest).length := by
                    have := takeName_rest_le (c :: rest)
                    rw [hn] at this
                    exact this
                  cases ns with
                  | nil => simp at h
                  | cons n ns2 =>
                      simp at h
                      rw [← h]
                      exact hn1

theorem parseLoop_leftover :
    ∀ fuel : Nat, ∀ inBrace acc cs, cs.length < fuel →
      (parseLoop fuel inBrace acc cs).2 = [] ∨
        (inBrace = true ∧ ∃ r, (parseLoop fuel inBrace acc cs).2 = '}' :: r) := by
  intro fuel
  induction fuel with
  | zero => intro inBrace acc cs h; omega
  | succ fuel ih =>
      intro inBrace acc cs hlen
      rw [parseLoop.eq_def]
      cases cs with
      | nil => simp
      | cons c rest =>
        simp only [List.length_cons] at hlen
        by_cases h1 : c = '\\'
        · simp only [h1]
          cases rest with
          | nil => simp
          | cons c2 rest2 =>
            simp only [List.length_cons] at hlen
            by_cases h2 : (c2 = '$' || c2 = '}' || c2 = '\\') = true
            · simp only [h2, if_pos rfl]
              exact ih inBrace (acc ++ [c2]) rest2 (by omega)
            · simp only [h2, Bool.false_eq_true, if_false]
              exact ih inBrace (acc ++ ['\\']) (c2 :: rest2) (by simp; omega)
        · by_cases h2 : c = '}'
          · simp only [h1, h2]
            cases inBrace with
            | true => simp
            | false =>
                have := ih false (acc ++ ['}']) rest (by omega)
                simpa using this
          · by_cases h3 : c = '$'
            · simp only [h1, h2, h3]
              cases hd : parseDollar fuel rest with
              | none =>
                  simp only [hd]
                  have := ih inBrace (acc ++ ['$']) rest (by omega)
                  simpa using this
              | some q =>
                  obtain ⟨m, rest1⟩ := q
                  have hr : rest1.length ≤ rest.length := by
                    have := (parse_rest_length fuel).2 rest (m, rest1) hd
                    simpa using this
                  simp only [hd]
                  have := ih inBrace [] rest1 (by omega)
                  cases this with
                  | inl hl => left; simpa using hl
                  | inr hr2 =>
                      right
                      obtain ⟨hb, r, hrr⟩ := hr2
                      exact ⟨hb, r, by simpa using hrr⟩
            · simp only [h1, h2, h3]
              have := ih inBrace (acc ++ [c]) rest (by omega)
              simpa using this

theorem parseLoop_plain :
    ∀ fuel : Nat, ∀ cs acc : List Char, cs.length < fuel → cs.all plainChar = true →
      parseLoop fuel false acc cs = (flushText (acc ++ cs), []) := by
  intro fuel
  induction fuel with
  | zero => intro cs acc h _; omega
  | succ fuel ih =>
      intro cs acc hlen hplain
      rw [parseLoop.eq_def]
      cases cs with
      | nil => simp
      | cons c rest =>
        simp only [List.length_cons] at hlen
        simp only [List.all_cons, Bool.and_eq_true] at hplain
        obtain ⟨hc, hrest⟩ := hplain
        simp only [plainChar] at hc
        have h1 : ¬ c = '$' := by
          intro h; rw [h] at hc; simp at hc
        have h2 : ¬ c = '\\' := by
          intro h; rw [h] at hc; simp at hc
        have h3 : ¬ c = '}' := by
          intro h; rw [h] at hc; simp at hc
        simp only [h1, h2, h3, if_false]
        rw [ih rest (acc ++ [c]) (by omega) hrest]
        simp

/-- C2: for every template string and every `insertFinalTabstop` flag,
`parse` is a total function: the parse loop consumes the whole input
and never gets stuck (first conjunct); a template of plain literal
characters comes back verbatim as a single `Text` marker (second
conjunct); syntactically irregular spans degrade to `Text` markers
holding the raw characters, e.g. an unterminated brace and a bare
dollar (last conjuncts). -/
theorem parse_total_and_degrades :
    (∀ t : String, ∀ b : Bool,
        (parseLoop (t.data.length + 1) false [] t.data).2 = []) ∧
    (∀ t : String, t.data ≠ [] → t.data.all plainChar = true →
        parse t false = ⟨[.text t.data]⟩) ∧
    parse "$\x7b1:" false = ⟨[.text "$\x7b1:".data]⟩ ∧
    parse "$" true = ⟨[.text ['$'], .placeholder 0 [] [] none]⟩ := by
  refine ⟨?_, ?_, ?_, ?_⟩
  · intro t b
    have := parseLoop_leftover (t.data.length + 1) false [] t.data (by omega)
    rcases this with h | ⟨h, _⟩
    · exact h
    · simp at h
  · intro t hne hplain
    unfold parse parseMarkers
    rw [parseLoop_plain (t.data.length + 1) t.data [] (by omega) hplain]
    simp [flushText, hne]
  · rfl
  · rfl

/-- Witness for C2 at a concrete input. -/
theorem parse_total_and_degrades_witness :
    "ab".data ≠ [] ∧ "ab".data.all plainChar = true ∧
      parse "ab" false = ⟨[.text "ab".data]⟩ :=
  ⟨by decide, by decide, parse_total_and_degrades.2.1 "ab" (by decide) (by decide)⟩

/-! ## C8: resolveSnippet -/

theorem listHasZero_append (ms ns : List Marker) :
    listHasZero (ms ++ ns) = (listHasZero ms || listHasZero ns) := by
  induction ms with
  | nil => simp [listHasZero]
  | cons m ms ih => simp [listHasZero, ih, Bool.or_assoc]

theorem parseMarkers_true_hasZero (cs : List Char) :
    listHasZero (parseMarkers cs true) = true := by
  unfold parseMarkers
  cases h : listHasZero (parseLoop (cs.length + 1) false [] cs).1 with
  | false => simp [h, listHasZero_append, listHasZero, markerHasZero]
  | true => simp [h]

theorem parse_true_hasZero (t : String) :
    listHasZero (parse t true).children = true := by
  unfold parse
  exact parseMarkers_true_hasZero t.data

mutual

theorem markerHasZero_resolve (R : VariableResolver) :
    ∀ m : Marker, markerHasZero (resolveMarker R m) = markerHasZero m
  | .text v => by simp [resolveMarker, markerHasZero]
  | .placeholder i ch cs tr => by
      simp [resolveMarker, markerHasZero, listHasZero_resolve R ch]
  | .var n ch tr => by
      cases ch with
      | nil =>
          cases hr : R.resolve n with
          | none => simp [resolveMarker, markerHasZero, hr, listHasZero]
          | some v =>
              simp [resolveMarker, markerHasZero, hr, listHasZero]
      | cons c cs =>
          simp [resolveMarker, markerHasZero, listHasZero_resolve R (c :: cs)]

theorem listHasZero_resolve (R : VariableResolver) :
    ∀ ms : List Marker, listHasZero (resolveMarkerList R ms) = listHasZero ms
  | [] => by simp [resolveMarkerList]
  | m :: ms => by
      simp [resolveMarkerList, listHasZero, markerHasZero_resolve R m,
        listHasZero_resolve R ms]

end

mutual

theorem resolveMarker_idem (R : VariableResolver) :
    ∀ m : Marker, resolveMarker R (resolveMarker R m) = resolveMarker R m
  | .text v => by simp [resolveMarker]
  | .placeholder i ch cs tr => by
      simp [resolveMarker, resolveMarkerList_idem R ch]
  | .var n ch tr => by
      cases ch with
      | nil =>
          cases hr : R.resolve n with
          | none => simp [resolveMarker, hr]
          | some v => simp [resolveMarker, hr, resolveMarkerList]
      | cons c cs =>
          show Marker.var n (resolveMarkerList R (resolveMarkerList R (c :: cs))) tr =
            Marker.var n (resolveMarkerList R (c :: cs)) tr
          rw [resolveMarkerList_idem R (c :: cs)]

theorem resolveMarkerList_idem (R : VariableResolver) :
    ∀ ms : List Marker, resolveMarkerList R (resolveMarkerList R ms) = resolveMarkerList R ms
  | [] => by simp [resolveMarkerList]
  | m :: ms => by
      simp [resolveMarkerList, resolveMarker_idem R m, resolveMarkerList_idem R ms]

end

/-- C8: `resolveSnippet` parses its body with `insertFinalTabstop` set
to true — so the returned snippet always declares tabstop 0, appended
at the end when the body does not declare it — and performs exactly one
variable-resolution pass before returning (first conjunct is the whole
definition: one `resolveVariables` application over the parse result);
a further pass would change nothing (third conjunct), so values are
fixed once resolved. -/
theorem resolveSnippet_once_with_final_tabstop :
    (∀ (R : VariableResolver) (body : String),
        SnippetManager.resolveSnippet R body = (parse body true).resolveVariables R) ∧
    (∀ (R : VariableResolver) (body : String),
        listHasZero (SnippetManager.resolveSnippet R body).children = true) ∧
    (∀ (R : VariableResolver) (body : String),
        (SnippetManager.resolveSnippet R body).resolveVariables R =
          SnippetManager.resolveSnippet R body) := by
  refine ⟨fun R body => rfl, fun R body => ?_, fun R body => ?_⟩
  · unfold SnippetManager.resolveSnippet TextmateSnippet.resolveVariables
    simp only [listHasZero_resolve]
    exact parse_true_hasZero body
  · unfold SnippetManager.resolveSnippet TextmateSnippet.resolveVariables
    simp only [resolveMarkerList_idem]

/-! ## C5: navigation order -/

/-- C5: navigation traverses the distinct tabstop indices in ascending
order with 0 as the terminal stop: `navOrder` is strictly ascending up
to its final element, which is always 0 (general conjuncts); for a
template with tabstops 2, 1, 0, `start` activates index 1, one
`nextPlaceholder` moves to 2, a further one moves to 0 and deactivates
the session, and `previousPlaceholder` at the first tabstop is a no-op
(concrete conjuncts). -/
theorem navigation_order_spec :
    (∀ ms : List Marker, List.Sorted (· < ·) ((navOrder ms).dropLast)) ∧
    (∀ ms : List Marker, (navOrder ms).getLast? = some 0) ∧
    ((SnippetSession.start idEngine 1 "$2$1$0").1.current = some 1 ∧
      (SnippetSession.start idEngine 1 "$2$1$0").1.isActive = true) ∧
    ((SnippetSession.start idEngine 1 "$2$1$0").1.nextPlaceholder.current = some 2 ∧
      (SnippetSession.start idEngine 1 "$2$1$0").1.nextPlaceholder.isActive = true) ∧
    ((SnippetSession.start idEngine 1
        "$2$1$0").1.nextPlaceholder.nextPlaceholder.current = some 0 ∧
      (SnippetSession.start idEngine 1
        "$2$1$0").1.nextPlaceholder.nextPlaceholder.isActive = false) ∧
    (SnippetSession.start idEngine 1 "$2$1$0").1.previousPlaceholder =
      (SnippetSession.start idEngine 1 "$2$1$0").1 := by
  refine ⟨?_, ?_, ⟨by decide, by decide⟩, ⟨by decide, by decide⟩,
    ⟨by decide, by decide⟩, by rfl⟩
  · intro ms
    unfold navOrder
    rw [List.dropLast_concat]
    exact List.Pairwise.filter _ (List.pairwise_lt_range _)
  · intro ms
    unfold navOrder
    exact List.getLast?_concat _

/-! ## Manager lemmas and claims about the session registry -/

theorem lookupSession_setSession_self :
    ∀ (l : List (Nat × SnippetSession)) (b : Nat) (s : SnippetSession),
      lookupSession (setSession l b s) b = some s := by
  intro l b s
  induction l with
  | nil => simp [setSession, lookupSession]
  | cons p rest ih =>
      obtain ⟨k, v⟩ := p
      by_cases h : k = b
      · simp [setSession, lookupSession, h]
      · simp [setSession, lookupSession, h, ih]

theorem mem_keys_setSession :
    ∀ (l : List (Nat × SnippetSession)) (b : Nat) (s : SnippetSession) (x : Nat),
      x ∈ (setSession l b s).map Prod.fst ↔ x ∈ l.map Prod.fst ∨ x = b := by
  intro l b s x
  induction l with
  | nil => simp [setSession]
  | cons p rest ih =>
      obtain ⟨k, v⟩ := p
      by_cases h : k = b
      · subst h
        simp [setSession]
        tauto
      · simp [setSession, h, ih]
        tauto

theorem keys_nodup_setSession :
    ∀ (l : List (Nat × SnippetSession)) (b : Nat) (s : SnippetSession),
      (l.map Prod.fst).Nodup → ((setSession l b s).map Prod.fst).Nodup := by
  intro l b s h
  induction l with
  | nil => simp [setSession]
  | cons p rest ih =>
      obtain ⟨k, v⟩ := p
      simp only [List.map_cons, List.nodup_cons] at h
      by_cases hk : k = b
      · subst hk
        simpa [setSession] using h
      · simp only [setSession, hk, if_false, List.map_cons, List.nodup_cons]
        refine ⟨?_, ih h.2⟩
        intro hmem
        rw [mem_keys_setSession] at hmem
        rcases hmem with hm | hm
        · exact h.1 hm
        · exact hk hm

/-- C1: the registry keeps at most one session per buffer (its key list
stays duplicate-free across `insertSnippet`), and starting a new
snippet in a buffer binds that buffer to the freshly started session —
a value depending only on the new template, never merged with whatever
session the buffer had before. -/
theorem registry_at_most_one_session :
    ∀ (E : TransformEngine) (st : SnippetManager) (bufnr : Nat) (tmpl : String),
      (st.sessionMap.map Prod.fst).Nodup →
      ((((st.insertSnippet E bufnr tmpl).1.sessionMap.map Prod.fst).Nodup) ∧
        (((st.insertSnippet E bufnr tmpl).2 = true ∨ st.getSession bufnr ≠ none) →
          (st.insertSnippet E bufnr tmpl).1.getSession bufnr =
            some (SnippetSession.start E bufnr tmpl).1)) := by
  intro E st bufnr tmpl hnd
  unfold SnippetManager.insertSnippet
  by_cases hb : (SnippetSession.start E bufnr tmpl).2 = true
  · simp only [hb, if_true]
    exact ⟨keys_nodup_setSession _ _ _ hnd,
      fun _ => lookupSession_setSession_self _ _ _⟩
  · simp only [Bool.not_eq_true] at hb
    simp only [hb, Bool.false_eq_true, if_false]
    cases hg : st.getSession bufnr with
    | some prior =>
        simp only [SnippetManager.getSession] at hg
        simp only [SnippetManager.getSession, hg]
        exact ⟨keys_nodup_setSession _ _ _ hnd,
          fun _ => lookupSession_setSession_self _ _ _⟩
    | none =>
        simp only [SnippetManager.getSession] at hg
        simp only [SnippetManager.getSession, hg]
        refine ⟨hnd, ?_⟩
        rintro (h | h)
        · simp at h
        · exact absurd (by simpa [SnippetManager.getSession] using hg) h

/-- Witness for C1 at a concrete input. -/
theorem registry_at_most_one_session_witness :
    (((⟨[]⟩ : SnippetManager).sessionMap.map Prod.fst).Nodup) ∧
    ((⟨[]⟩ : SnippetManager).insertSnippet idEngine 1 "a$1").2 = true ∧
    ((((⟨[]⟩ : SnippetManager).insertSnippet idEngine 1
        "a$1").1.sessionMap.map Prod.fst).Nodup) ∧
    ((⟨[]⟩ : SnippetManager).insertSnippet idEngine 1 "a$1").1.getSession 1 =
      some (SnippetSession.start idEngine 1 "a$1").1 :=
  ⟨by simp, by decide,
    (registry_at_most_one_session idEngine ⟨[]⟩ 1 "a$1" (by simp)).1,
    (registry_at_most_one_session idEngine ⟨[]⟩ 1 "a$1" (by simp)).2
      (Or.inl (by decide))⟩

/-- C7 (amended): `insertSnippet` returns exactly the `isActive` result
of the underlying session `start`; when it returns false and no session
was registered for the buffer before the call, none is registered after
it (no session is created).  A session registered before the call stays
registered even on a false return — see the counterexample. -/
theorem insertSnippet_returns_start_isActive :
    ∀ (E : TransformEngine) (st : SnippetManager) (bufnr : Nat) (tmpl : String),
      (st.insertSnippet E bufnr tmpl).2 = (SnippetSession.start E bufnr tmpl).2 ∧
      ((st.insertSnippet E bufnr tmpl).2 = false → st.getSession bufnr = none →
        (st.insertSnippet E bufnr tmpl).1.getSession bufnr = none) := by
  intro E st bufnr tmpl
  constructor
  · unfold SnippetManager.insertSnippet
    by_cases hb : (SnippetSession.start E bufnr tmpl).2 = true
    · simp [hb]
    · simp only [Bool.not_eq_true] at hb
      cases hg : st.getSession bufnr with
      | some prior =>
          simp only [SnippetManager.getSession] at hg
          simp [hb, SnippetManager.getSession, hg]
      | none =>
          simp only [SnippetManager.getSession] at hg
          simp [hb, SnippetManager.getSession, hg]
  · intro hfalse hnone
    unfold SnippetManager.insertSnippet at hfalse ⊢
    by_cases hb : (SnippetSession.start E bufnr tmpl).2 = true
    · rw [if_pos hb] at hfalse
      simp at hfalse
    · simp only [Bool.not_eq_true] at hb
      simp only [SnippetManager.getSession] at hnone
      simp [hb, SnippetManager.getSession, hnone]

/-- Witness for C7 at a concrete input. -/
theorem insertSnippet_returns_start_isActive_witness :
    ((⟨[]⟩ : SnippetManager).insertSnippet idEngine 1 "plain").2 = false ∧
    (⟨[]⟩ : SnippetManager).getSession 1 = none ∧
    ((⟨[]⟩ : SnippetManager).insertSnippet idEngine 1 "plain").2 =
      (SnippetSession.start idEngine 1 "plain").2 ∧
    ((⟨[]⟩ : SnippetManager).insertSnippet idEngine 1 "plain").1.getSession 1 = none :=
  ⟨by decide, by rfl,
    (insertSnippet_returns_start_isActive idEngine ⟨[]⟩ 1 "plain").1,
    (insertSnippet_returns_start_isActive idEngine ⟨[]⟩ 1 "plain").2
      (by decide) (by rfl)⟩

/-- Counterexample to C7 as stated: starting a tabstop-free template in
a buffer that already has a session returns false, yet the prior
session object (restarted in place) is still registered for the
buffer. -/
theorem insertSnippet_false_session_remains :
    ((((⟨[]⟩ : SnippetManager).insertSnippet idEngine 1
        "a$1").1.insertSnippet idEngine 1 "plain").2 = false) ∧
    (((((⟨[]⟩ : SnippetManager).insertSnippet idEngine 1
        "a$1").1.insertSnippet idEngine 1 "plain").1.getSession 1).isSome = true) := by
  exact ⟨by decide, by decide⟩

/-- C6: once a session is inactive no text-change notification is
forwarded to it: the manager's `onDidChangeTextDocument` handler does
nothing when the buffer has no session or its session is inactive; the
session-level synchronize is itself a no-op on an inactive session; and
`cancel` flips the buffer's session to inactive while leaving the
already-inserted text untouched. -/
theorem inactive_sessions_get_no_sync :
    ∀ (E : TransformEngine) (st : SnippetManager) (b : Nat)
      (changes : List TextChange),
      (st.getSession b = none →
        st.onDidChangeTextDocument E (some b) changes = (st, [])) ∧
      (∀ s, st.getSession b = some s → s.isActive = false →
        st.onDidChangeTextDocument E (some b) changes = (st, [])) ∧
      (∀ (s : SnippetSession) (c : TextChange), s.isActive = false →
        s.synchronizeUpdatedPlaceholders E c = s) ∧
      (∀ s, st.getSession b = some s →
        ((st.cancel b).getSession b = some s.deactivate ∧
          s.deactivate.text = s.text ∧ s.deactivate.isActive = false)) := by
  intro E st b changes
  refine ⟨?_, ?_, ?_, ?_⟩
  · intro hg
    unfold SnippetManager.onDidChangeTextDocument
    simp only [hg]
  · intro s hg hact
    unfold SnippetManager.onDidChangeTextDocument
    simp only [hg, hact, Bool.false_eq_true, if_false]
  · intro s c hact
    unfold SnippetSession.synchronizeUpdatedPlaceholders
    simp [hact]
  · intro s hg
    refine ⟨?_, rfl, rfl⟩
    unfold SnippetManager.cancel
    simp only [hg]
    exact lookupSession_setSession_self _ _ _

/-- Witness for C6 at a concrete input: a buffer holding an inactive
session receives a change notification and nothing is forwarded. -/
theorem inactive_sessions_get_no_sync_witness :
    (SnippetSession.start idEngine 1 "plain").1.isActive = false ∧
    (SnippetManager.mk [(1, (SnippetSession.start idEngine 1 "plain").1)]).getSession 1 =
      some (SnippetSession.start idEngine 1 "plain").1 ∧
    (SnippetManager.mk
        [(1, (SnippetSession.start idEngine 1 "plain").1)]).onDidChangeTextDocument
        idEngine (some 1) [⟨0, 0, "x".data⟩] =
      (SnippetManager.mk [(1, (SnippetSession.start idEngine 1 "plain").1)], []) :=
  ⟨by decide, by rfl,
    (inactive_sessions_get_no_sync idEngine
        (SnippetManager.mk [(1, (SnippetSession.start idEngine 1 "plain").1)]) 1
        [⟨0, 0, "x".data⟩]).2.1
      (SnippetSession.start idEngine 1 "plain").1 (by rfl) (by decide)⟩

/-- C9: only `contentChanges[0]` reaches the session: the handler's
behaviour on a change list depends only on its first element, and the
forwarded-change list is at most that one head element — any further
simultaneous changes are dropped. -/
theorem only_first_content_change_forwarded :
    ∀ (E : TransformEngine) (st : SnippetManager) (docBufnr : Option Nat)
      (c : TextChange) (cs : List TextChange),
      st.onDidChangeTextDocument E docBufnr (c :: cs) =
        st.onDidChangeTextDocument E docBufnr [c] ∧
      ((st.onDidChangeTextDocument E docBufnr (c :: cs)).2 = [] ∨
        (st.onDidChangeTextDocument E docBufnr (c :: cs)).2 = [c]) := by
  intro E st docBufnr c cs
  unfold SnippetManager.onDidChangeTextDocument
  cases docBufnr with
  | none => exact ⟨rfl, Or.inl rfl⟩
  | some b =>
      cases hg : st.getSession b with
      | none => simp [hg]
      | some s =>
          cases hact : s.isActive with
          | false => simp [hg, hact]
          | true => simp [hg, hact]

/-! ## C10: LanguageProvider.handles -/

/-- C10: with any configured (nonempty) config-file name, `handles`
returns true exactly when the path merely ends in `ts`/`tsx` under the
`typescript` id (`js`/`jsx` under `javascript`) — no preceding dot or
extension boundary required — or the buffer-sync support claims the
resource, or the path's basename equals the config-file name. -/
theorem handles_spec :
    ∀ (descId configFile : List Char) (bufferSync : Bool) (fsPath : List Char),
      configFile ≠ [] →
      (handles descId configFile bufferSync fsPath = true ↔
        ((descId = "typescript".data ∧
            (List.isSuffixOf "ts".data fsPath = true ∨
              List.isSuffixOf "tsx".data fsPath = true)) ∨
          (descId = "javascript".data ∧
            (List.isSuffixOf "js".data fsPath = true ∨
              List.isSuffixOf "jsx".data fsPath = true)) ∨
          bufferSync = true ∨
          nodeBasename fsPath = configFile)) := by
  intro descId configFile bufferSync fsPath hcf
  unfold handles
  by_cases h1 : descId = "typescript".data ∧ tsTest fsPath = true
  · obtain ⟨ha, hb⟩ := h1
    rw [if_pos ⟨ha, hb⟩]
    simp only [tsTest, Bool.or_eq_true] at hb
    constructor
    · intro _
      exact Or.inl ⟨ha, hb⟩
    · intro _
      rfl
  · rw [if_neg h1]
    by_cases h2 : descId = "javascript".data ∧ jsTest fsPath = true
    · obtain ⟨ha, hb⟩ := h2
      rw [if_pos ⟨ha, hb⟩]
      simp only [jsTest, Bool.or_eq_true] at hb
      constructor
      · intro _
        exact Or.inr (Or.inl ⟨ha, hb⟩)
      · intro _
        rfl
    · rw [if_neg h2]
      simp only [tsTest, Bool.or_eq_true, not_and] at h1
      simp only [jsTest, Bool.or_eq_true, not_and] at h2
      cases hbs : bufferSync with
      | true =>
          rw [if_pos rfl]
          constructor
          · intro _
            exact Or.inr (Or.inr (Or.inl rfl))
          · intro _
            rfl
      | false =>
          rw [if_neg (by simp)]
          constructor
          · intro h
            simp only [Bool.and_eq_true, Bool.not_eq_true', List.isEmpty_eq_false,
              beq_iff_eq] at h
            exact Or.inr (Or.inr (Or.inr h.2))
          · rintro (⟨ha, hb⟩ | ⟨ha, hb⟩ | hb | hb)
            · exact absurd hb (h1 ha)
            · exact absurd hb (h2 ha)
            · exact absurd hb (by simp)
            · simp only [Bool.and_eq_true, Bool.not_eq_true', List.isEmpty_eq_false,
                beq_iff_eq]
              exact ⟨by rw [hb]; exact hcf, hb⟩

/-- Witness for C10 at concrete inputs: under the `typescript` id the
path `hats` is handled purely because it ends in `ts`. -/
theorem handles_spec_witness :
    "tsconfig.json".data ≠ [] ∧
    (handles "typescript".data "tsconfig.json".data false "hats".data = true ↔
      (("typescript".data = "typescript".data ∧
          (List.isSuffixOf "ts".data "hats".data = true ∨
            List.isSuffixOf "tsx".data "hats".data = true)) ∨
        ("typescript".data = "javascript".data ∧
          (List.isSuffixOf "js".data "hats".data = true ∨
            List.isSuffixOf "jsx".data "hats".data = true)) ∨
        false = true ∨
        nodeBasename "hats".data = "tsconfig.json".data)) :=
  ⟨by decide,
    handles_spec "typescript".data "tsconfig.json".data false "hats".data (by decide)⟩

/-! ## Synchronization lemmas (C3, C4) -/

theorem renderMarkers_append (E : TransformEngine) (ms ns : List Marker) :
    renderMarkers E (ms ++ ns) = renderMarkers E ms ++ renderMarkers E ns := by
  induction ms with
  | nil => simp [renderMarkers]
  | cons m ms ih => simp [renderMarkers, ih]

mutual

theorem mirrorUpdateM_of_no_mirror (a : Nat) (v : List Char) :
    ∀ m : Marker, markerHasMirror a m = false → mirrorUpdateM a v m = m
  | .text w => fun _ => rfl
  | .placeholder j ch cs tr => fun h => by
      simp only [markerHasMirror, Bool.or_eq_false_iff, beq_eq_false_iff_ne, ne_eq] at h
      simp only [mirrorUpdateM, h.1, if_false]
      rw [mirrorUpdateL_of_no_mirror a v ch h.2]
  | .var n ch tr => fun h => by
      simp only [markerHasMirror] at h
      simp only [mirrorUpdateM]
      rw [mirrorUpdateL_of_no_mirror a v ch h]

theorem mirrorUpdateL_of_no_mirror (a : Nat) (v : List Char) :
    ∀ ms : List Marker, listHasMirror a ms = false → mirrorUpdateL a v ms = ms
  | [] => fun _ => rfl
  | m :: ms => fun h => by
      simp only [listHasMirror, Bool.or_eq_false_iff] at h
      simp only [mirrorUpdateL]
      rw [mirrorUpdateM_of_no_mirror a v m h.1, mirrorUpdateL_of_no_mirror a v ms h.2]

end

theorem mirrorUpdateL_isEmpty (a : Nat) (v : List Char) (ms : List Marker) :
    (mirrorUpdateL a v ms).isEmpty = ms.isEmpty := by
  cases ms <;> simp [mirrorUpdateL]

theorem renderMarker_mirror_set (E : TransformEngine) (a : Nat) (v : List Char)
    (cs : List (List Char)) (tr : Option Transform) :
    renderMarker E (.placeholder a [.text v] cs tr) = applyTransform E tr v := by
  cases tr with
  | none => simp [renderMarker, renderMarkers, applyTransform]
  | some t => simp [renderMarker, renderMarkers, applyTransform]

mutual

theorem preRenderM_seen (E : TransformEngine) (a : Nat) (v : List Char) :
    ∀ m : Marker, preRenderM E a v true m = (renderMarker E m, true)
  | .text w => by simp [preRenderM, renderMarker]
  | .placeholder j ch cs tr => by
      by_cases hj : j = a
      · simp [preRenderM, hj]
      · cases tr with
        | some t => simp [preRenderM, hj]
        | none =>
            cases ch with
            | nil => simp [preRenderM, hj]
            | cons c cs2 =>
                simp only [preRenderM, hj, if_false, Option.isNone_none,
                  List.isEmpty_cons, Bool.not_false, Bool.and_self, if_true]
                rw [preRenderL_seen E a v (c :: cs2)]
                simp [renderMarker, List.isEmpty_cons]
  | .var n ch tr => by
      cases tr with
      | some t => simp [preRenderM]
      | none =>
          simp only [preRenderM, Option.isNone_none, if_true]
          rw [preRenderL_seen E a v ch]
          simp [renderMarker]

theorem preRenderL_seen (E : TransformEngine) (a : Nat) (v : List Char) :
    ∀ ms : List Marker, preRenderL E a v true ms = (renderMarkers E ms, true)
  | [] => by simp [preRenderL, renderMarkers]
  | m :: ms => by
      simp only [preRenderL]
      rw [preRenderM_seen E a v m, preRenderL_seen E a v ms]
      simp [renderMarkers]

end


mutual

theorem canonicalSpanM_bounds (E : TransformEngine) (a : Nat) :
    ∀ (m : Marker) (off st en : Nat), canonicalSpanM E a off m = some (st, en) →
      off ≤ st ∧ st ≤ en ∧ en ≤ off + (renderMarker E m).length
  | .text w => by intro off st en h; simp [canonicalSpanM] at h
  | .placeholder j ch cs tr => by
      intro off st en h
      by_cases hj : j = a
      · subst hj
        simp only [canonicalSpanM, eq_self_iff_true, if_true, Option.some.injEq,
          Prod.mk.injEq] at h
        omega
      · cases tr with
        | some t => simp [canonicalSpanM, hj] at h
        | none =>
            cases ch with
            | nil => simp [canonicalSpanM, hj] at h
            | cons c cs2 =>
                simp only [canonicalSpanM, hj, if_false, Option.isNone_none,
                  List.isEmpty_cons, Bool.not_false, Bool.and_self, if_true] at h
                have hb := canonicalSpanL_bounds E a (c :: cs2) off st en h
                have hr : renderMarker E (.placeholder j (c :: cs2) cs none) =
                    renderMarkers E (c :: cs2) := by
                  simp [renderMarker]
                rw [hr]
                exact hb
  | .var n ch tr => by
      intro off st en h
      cases tr with
      | some t => simp [canonicalSpanM] at h
      | none =>
          simp only [canonicalSpanM, Option.isNone_none, if_true] at h
          have hb := canonicalSpanL_bounds E a ch off st en h
          have hr : renderMarker E (.var n ch none) = renderMarkers E ch := by
            simp [renderMarker]
          rw [hr]
          exact hb

theorem canonicalSpanL_bounds (E : TransformEngine) (a : Nat) :
    ∀ (ms : List Marker) (off st en : Nat), canonicalSpanL E a off ms = some (st, en) →
      off ≤ st ∧ st ≤ en ∧ en ≤ off + (renderMarkers E ms).length
  | [] => by intro off st en h; simp [canonicalSpanL] at h
  | m :: ms => by
      intro off st en h
      simp only [canonicalSpanL] at h
      cases hm : canonicalSpanM E a off m with
      | some sp =>
          rw [hm] at h
          simp only [Option.some.injEq] at h
          obtain ⟨s1, e1⟩ := sp
          cases h
          have hb := canonicalSpanM_bounds E a m off st en hm
          simp only [renderMarkers, List.length_append]
          omega
      | none =>
          rw [hm] at h
          have hb := canonicalSpanL_bounds E a ms (off + (renderMarker E m).length) st en h
          simp only [renderMarkers, List.length_append]
          omega

end

mutual

theorem preRenderM_none (E : TransformEngine) (a : Nat) (v : List Char) :
    ∀ (m : Marker) (off : Nat), canonicalSpanM E a off m = none →
      preRenderM E a v false m = (renderMarker E m, false)
  | .text w => by intro off h; simp [preRenderM, renderMarker]
  | .placeholder j ch cs tr => by
      intro off h
      by_cases hj : j = a
      · simp [canonicalSpanM, hj] at h
      · cases tr with
        | some t => simp [preRenderM, hj]
        | none =>
            cases ch with
            | nil => simp [preRenderM, hj]
            | cons c cs2 =>
                simp only [canonicalSpanM, hj, if_false, Option.isNone_none,
                  List.isEmpty_cons, Bool.not_false, Bool.and_self, if_true] at h
                simp only [preRenderM, hj, if_false, Option.isNone_none,
                  List.isEmpty_cons, Bool.not_false, Bool.and_self, if_true]
                rw [preRenderL_none E a v (c :: cs2) off h]
                simp [renderMarker]
  | .var n ch tr => by
      intro off h
      cases tr with
      | some t => simp [preRenderM]
      | none =>
          simp only [canonicalSpanM, Option.isNone_none, if_true] at h
          simp only [preRenderM, Option.isNone_none, if_true]
          rw [preRenderL_none E a v ch off h]
          simp [renderMarker]

theorem preRenderL_none (E : TransformEngine) (a : Nat) (v : List Char) :
    ∀ (ms : List Marker) (off : Nat), canonicalSpanL E a off ms = none →
      preRenderL E a v false ms = (renderMarkers E ms, false)
  | [] => by intro off h; simp [preRenderL, renderMarkers]
  | m :: ms => by
      intro off h
      simp only [canonicalSpanL] at h
      cases hm : canonicalSpanM E a off m with
      | some sp => rw [hm] at h; simp at h
      | none =>
          rw [hm] at h
          simp only [preRenderL]
          rw [preRenderM_none E a v m off hm,
            preRenderL_none E a v ms (off + (renderMarker E m).length) h]
          simp [renderMarkers]

end

mutual

theorem preRenderM_span (E : TransformEngine) (a : Nat) (v : List Char) :
    ∀ (m : Marker) (off st en : Nat), canonicalSpanM E a off m = some (st, en) →
      preRenderM E a v false m =
        ((renderMarker E m).take (st - off) ++ v ++ (renderMarker E m).drop (en - off),
          true)
  | .text w => by intro off st en h; simp [canonicalSpanM] at h
  | .placeholder j ch cs tr => by
      intro off st en h
      by_cases hj : j = a
      · subst hj
        simp only [canonicalSpanM, eq_self_iff_true, if_true, Option.some.injEq,
          Prod.mk.injEq] at h
        obtain ⟨h1, h2⟩ := h
        have hst : st - off = 0 := by omega
        have hen : en - off =
            (renderMarker E (.placeholder j ch cs tr)).length := by omega
        rw [hst, hen]
        simp only [preRenderM, eq_self_iff_true, if_true, Bool.false_eq_true, if_false,
          List.take_zero, List.drop_length, List.nil_append, List.append_nil]
      · cases tr with
        | some t => simp [canonicalSpanM, hj] at h
        | none =>
            cases ch with
            | nil => simp [canonicalSpanM, hj] at h
            | cons c cs2 =>
                simp only [canonicalSpanM, hj, if_false, Option.isNone_none,
                  List.isEmpty_cons, Bool.not_false, Bool.and_self, if_true] at h
                simp only [preRenderM, hj, if_false, Option.isNone_none,
                  List.isEmpty_cons, Bool.not_false, Bool.and_self, if_true]
                rw [preRenderL_span E a v (c :: cs2) off st en h]
                simp [renderMarker]
  | .var n ch tr => by
      intro off st en h
      cases tr with
      | some t => simp [canonicalSpanM] at h
      | none =>
          simp only [canonicalSpanM, Option.isNone_none, if_true] at h
          simp only [preRenderM, Option.isNone_none, if_true]
          rw [preRenderL_span E a v ch off st en h]
          simp [renderMarker]

theorem preRenderL_span (E : TransformEngine) (a : Nat) (v : List Char) :
    ∀ (ms : List Marker) (off st en : Nat), canonicalSpanL E a off ms = some (st, en) →
      preRenderL E a v false ms =
        ((renderMarkers E ms).take (st - off) ++ v ++ (renderMarkers E ms).drop (en - off),
          true)
  | [] => by intro off st en h; simp [canonicalSpanL] at h
  | m :: ms => by
      intro off st en h
      simp only [canonicalSpanL] at h
      cases hm : canonicalSpanM E a off m with
      | some sp =>
          rw [hm] at h
          simp only [Option.some.injEq] at h
          obtain ⟨s1, e1⟩ := sp
          cases h
          have hb := canonicalSpanM_bounds E a m off st en hm
          simp only [preRenderL]
          rw [preRenderM_span E a v m off st en hm]
          rw [preRenderL_seen E a v ms]
          simp only [renderMarkers]
          rw [List.take_append_of_le_length (by omega),
            List.drop_append_of_le_length (by omega)]
          simp [List.append_assoc]
      | none =>
          rw [hm] at h
          have hb := canonicalSpanL_bounds E a ms (off + (renderMarker E m).length) st en h
          simp only [preRenderL]
          rw [preRenderM_none E a v m off hm]
          rw [preRenderL_span E a v ms (off + (renderMarker E m).length) st en h]
          simp only [renderMarkers]
          rw [List.take_append_eq_append_take, List.drop_append_eq_append_drop]
          have t1 : (renderMarker E m).take (st - off) = renderMarker E m :=
            List.take_of_length_le (by omega)
          have t2 : (renderMarker E m).drop (en - off) = [] :=
            List.drop_of_length_le (by omega)
          have e1 : st - off - (renderMarker E m).length =
              st - (off + (renderMarker E m).length) := by omega
          have e2 : en - off - (renderMarker E m).length =
              en - (off + (renderMarker E m).length) := by omega
          rw [t1, t2, e1, e2]
          simp [List.append_assoc]

end

mutual

theorem writeBackM_correct (E : TransformEngine) (a : Nat) (v : List Char) :
    ∀ (m : Marker) (seen : Bool) (extra : List Char),
      writeBackM E a v seen m ((preRenderM E a v seen m).1 ++ extra) =
        (renderMarker E (mirrorUpdateM a v m), extra, (preRenderM E a v seen m).2)
  | .text w => by
      intro seen extra
      simp only [preRenderM, writeBackM, mirrorUpdateM]
      rw [List.take_left, List.drop_left]
      simp [renderMarker]
  | .placeholder j ch cs tr => by
      intro seen extra
      by_cases hj : j = a
      · subst hj
        cases seen with
        | false =>
            simp only [preRenderM, eq_self_iff_true, if_true, Bool.false_eq_true,
              if_false]
            simp only [writeBackM, eq_self_iff_true, if_true, Bool.false_eq_true,
              if_false]
            rw [List.drop_left]
            simp only [mirrorUpdateM, eq_self_iff_true, if_true]
            rw [renderMarker_mirror_set]
        | true =>
            simp only [preRenderM, eq_self_iff_true, if_true]
            simp only [writeBackM, eq_self_iff_true, if_true]
            rw [List.drop_left]
            simp only [mirrorUpdateM, eq_self_iff_true, if_true]
            rw [renderMarker_mirror_set]
      · cases tr with
        | none =>
            cases ch with
            | nil =>
                simp only [preRenderM, hj, if_false, Option.isNone_none,
                  List.isEmpty_nil, Bool.not_true, Bool.and_false, Bool.false_eq_true]
                simp only [writeBackM, hj, if_false, Option.isNone_none,
                  List.isEmpty_nil, Bool.not_true, Bool.and_false, Bool.false_eq_true,
                  listHasMirror]
                rw [List.take_left, List.drop_left]
                simp [mirrorUpdateM, mirrorUpdateL, hj]
            | cons c cs2 =>
                simp only [preRenderM, hj, if_false, Option.isNone_none,
                  List.isEmpty_cons, Bool.not_false, Bool.and_self, if_true]
                simp only [writeBackM, hj, if_false, Option.isNone_none,
                  List.isEmpty_cons, Bool.not_false, Bool.and_self, if_true]
                rw [writeBackL_correct E a v (c :: cs2) seen extra]
                simp only [mirrorUpdateM, hj, if_false, mirrorUpdateL]
                simp [renderMarker, renderMarkers]
        | some t =>
            by_cases hmir : listHasMirror a ch = true
            · simp only [preRenderM, hj, if_false, Option.isNone_some,
                Bool.false_and, Bool.false_eq_true]
              simp only [writeBackM, hj, if_false, Option.isNone_some,
                Bool.false_and, Bool.false_eq_true, hmir, if_true]
              rw [List.drop_left]
            · have hmf : listHasMirror a ch = false := by
                simpa using hmir
              simp only [preRenderM, hj, if_false, Option.isNone_some,
                Bool.false_and, Bool.false_eq_true]
              simp only [writeBackM, hj, if_false, Option.isNone_some,
                Bool.false_and, Bool.false_eq_true, hmf]
              rw [List.take_left, List.drop_left]
              rw [mirrorUpdateM_of_no_mirror a v _ (by simp [markerHasMirror, hj, hmf])]
  | .var n ch tr => by
      intro seen extra
      cases tr with
      | none =>
          simp only [preRenderM, writeBackM, Option.isNone_none, if_true]
          rw [writeBackL_correct E a v ch seen extra]
          simp only [mirrorUpdateM]
          simp [renderMarker]
      | some t =>
          by_cases hmir : listHasMirror a ch = true
          · simp only [preRenderM, Option.isNone_some, Bool.false_eq_true, if_false]
            simp only [writeBackM, Option.isNone_some, Bool.false_eq_true, if_false,
              hmir, if_true]
            rw [List.drop_left]
          · have hmf : listHasMirror a ch = false := by
              simpa using hmir
            simp only [preRenderM, Option.isNone_some, Bool.false_eq_true, if_false]
            simp only [writeBackM, Option.isNone_some, Bool.false_eq_true, if_false,
              hmf]
            rw [List.take_left, List.drop_left]
            rw [mirrorUpdateM_of_no_mirror a v _ (by simp [markerHasMirror, hmf])]

theorem writeBackL_correct (E : TransformEngine) (a : Nat) (v : List Char) :
    ∀ (ms : List Marker) (seen : Bool) (extra : List Char),
      writeBackL E a v seen ms ((preRenderL E a v seen ms).1 ++ extra) =
        (renderMarkers E (mirrorUpdateL a v ms), extra, (preRenderL E a v seen ms).2)
  | [] => by
      intro seen extra
      simp [preRenderL, writeBackL, mirrorUpdateL, renderMarkers]
  | m :: ms => by
      intro seen extra
      simp only [preRenderL, writeBackL]
      rw [List.append_assoc]
      rw [writeBackM_correct E a v m seen
        ((preRenderL E a v (preRenderM E a v seen m).2 ms).1 ++ extra)]
      rw [writeBackL_correct E a v ms (preRenderM E a v seen m).2 extra]
      simp [renderMarkers, mirrorUpdateL]

end

mutual

theorem mirrorsSetM_update (a : Nat) (v : List Char) :
    ∀ m : Marker, mirrorsSetM a v (mirrorUpdateM a v m) = true
  | .text w => rfl
  | .placeholder j ch cs tr => by
      by_cases hj : j = a
      · subst hj
        simp [mirrorUpdateM, mirrorsSetM]
      · simp only [mirrorUpdateM, hj, if_false]
        simp only [mirrorsSetM, hj, if_false]
        exact mirrorsSetL_update a v ch
  | .var n ch tr => by
      simp only [mirrorUpdateM, mirrorsSetM]
      exact mirrorsSetL_update a v ch

theorem mirrorsSetL_update (a : Nat) (v : List Char) :
    ∀ ms : List Marker, mirrorsSetL a v (mirrorUpdateL a v ms) = true
  | [] => rfl
  | m :: ms => by
      simp only [mirrorUpdateL, mirrorsSetL, Bool.and_eq_true]
      exact ⟨mirrorsSetM_update a v m, mirrorsSetL_update a v ms⟩

end

theorem replaceRange_within_segment (u t : List Char) (st en b1 b2 : Nat)
    (h1 : st ≤ b1) (h2 : b1 ≤ b2) (h3 : b2 ≤ en) (h4 : en ≤ u.length) :
    replaceRange u b1 b2 t =
      u.take st ++
        (replaceRange ((u.drop st).take (en - st)) (b1 - st) (b2 - st) t ++
          u.drop en) := by
  unfold replaceRange
  have p1 : u.take st ++ ((u.drop st).take (en - st)).take (b1 - st) = u.take b1 := by
    rw [List.take_take]
    have hmin : min (b1 - st) (en - st) = b1 - st := by omega
    rw [hmin]
    rw [← List.take_add]
    have : st + (b1 - st) = b1 := by omega
    rw [this]
  have p2 : ((u.drop st).take (en - st)).drop (b2 - st) ++ u.drop en = u.drop b2 := by
    rw [List.drop_take, List.drop_drop]
    have e1 : st + (b2 - st) = b2 := by omega
    have e2 : en - st - (b2 - st) = en - b2 := by omega
    rw [e1, e2]
    have e3 : u.drop en = (u.drop b2).drop (en - b2) := by
      rw [List.drop_drop]
      have : b2 + (en - b2) = en := by omega
      rw [this]
    rw [e3, List.take_append_drop]
  conv_lhs => rw [← p1, ← p2]
  simp [List.append_assoc]

theorem synchronize_active_eq (E : TransformEngine) (s : SnippetSession)
    (c : TextChange) (a st en : Nat)
    (hAct : s.isActive = true) (hCur : s.current = some a)
    (hSpan : canonicalSpanL E a 0 s.snippet = some (st, en))
    (h1 : st ≤ c.startPos) (h2 : c.startPos ≤ c.endPos) (h3 : c.endPos ≤ en) :
    s.synchronizeUpdatedPlaceholders E c =
      { s with
        snippet := mirrorUpdateL a
          (replaceRange ((s.text.drop st).take (en - st)) (c.startPos - st)
            (c.endPos - st) c.newText) s.snippet,
        text :=
          (writeBackL E a
            (replaceRange ((s.text.drop st).take (en - st)) (c.startPos - st)
              (c.endPos - st) c.newText) false s.snippet
            (replaceRange s.text c.startPos c.endPos c.newText)).1 ++
          (writeBackL E a
            (replaceRange ((s.text.drop st).take (en - st)) (c.startPos - st)
              (c.endPos - st) c.newText) false s.snippet
            (replaceRange s.text c.startPos c.endPos c.newText)).2.1 } := by
  unfold SnippetSession.synchronizeUpdatedPlaceholders
  rw [hAct]
  simp only [Bool.true_eq_false, if_false, hCur, hSpan]
  rw [if_pos ⟨h1, h2, h3⟩]

theorem sync_text_is_render (E : TransformEngine) (s : SnippetSession)
    (c : TextChange) (a st en : Nat)
    (hText : s.text = renderMarkers E s.snippet)
    (hAct : s.isActive = true) (hCur : s.current = some a)
    (hSpan : canonicalSpanL E a 0 s.snippet = some (st, en))
    (h1 : st ≤ c.startPos) (h2 : c.startPos ≤ c.endPos) (h3 : c.endPos ≤ en) :
    (s.synchronizeUpdatedPlaceholders E c).text =
      renderMarkers E (s.synchronizeUpdatedPlaceholders E c).snippet := by
  rw [synchronize_active_eq E s c a st en hAct hCur hSpan h1 h2 h3]
  obtain ⟨hb1, hb2, hb3⟩ := canonicalSpanL_bounds E a s.snippet 0 st en hSpan
  have hlen : en ≤ s.text.length := by
    rw [hText]
    omega
  have hbuf := replaceRange_within_segment s.text c.newText st en
    c.startPos c.endPos h1 h2 h3 hlen
  have hpre := preRenderL_span E a
    (replaceRange ((s.text.drop st).take (en - st)) (c.startPos - st)
      (c.endPos - st) c.newText) s.snippet 0 st en hSpan
  simp only [Nat.sub_zero] at hpre
  have hkey : replaceRange s.text c.startPos c.endPos c.newText =
      (preRenderL E a
        (replaceRange ((s.text.drop st).take (en - st)) (c.startPos - st)
          (c.endPos - st) c.newText) false s.snippet).1 ++ ([] : List Char) := by
    rw [hbuf, hpre, hText]
    simp [List.append_assoc]
  have hw := writeBackL_correct E a
    (replaceRange ((s.text.drop st).take (en - st)) (c.startPos - st)
      (c.endPos - st) c.newText) s.snippet false ([] : List Char)
  simp only
  rw [hkey, hw]
  simp

/-- **C3.** Render invariant: the text a session `start` requests for
insertion is exactly the tree-order concatenation of the rendered leaf
text of the parsed snippet, and a `synchronizeUpdatedPlaceholders` step
for an edit lying wholly inside the canonical mirror's rendered span
preserves that equality: afterwards the session text again equals the
render of the (mirror-updated) tree, in both length and content. -/
theorem render_invariant (E : TransformEngine) (bufnr : Nat) (template : String)
    (s : SnippetSession) (c : TextChange) (a st en : Nat)
    (hText : s.text = renderMarkers E s.snippet)
    (hAct : s.isActive = true) (hCur : s.current = some a)
    (hSpan : canonicalSpanL E a 0 s.snippet = some (st, en))
    (h1 : st ≤ c.startPos) (h2 : c.startPos ≤ c.endPos) (h3 : c.endPos ≤ en) :
    (SnippetSession.start E bufnr template).1.text =
      renderMarkers E (SnippetSession.start E bufnr template).1.snippet ∧
    (s.synchronizeUpdatedPlaceholders E c).text =
      renderMarkers E (s.synchronizeUpdatedPlaceholders E c).snippet := by
  constructor
  · unfold SnippetSession.start
    by_cases h : (listIndices (parse template false).children).isEmpty = true
    · simp [h]
    · simp [h]
  · exact sync_text_is_render E s c a st en hText hAct hCur hSpan h1 h2 h3

/-- Witness for C3: the session for `$\x7b1:foo\x7d and $\x7b1:foo\x7d`
satisfies every hypothesis for the edit replacing the canonical span
`[0, 3)` with `bar`, and the render invariant holds at start and after
the synchronization. -/
theorem render_invariant_witness :
    exSession.text = renderMarkers idEngine exSession.snippet ∧
    exSession.isActive = true ∧
    exSession.current = some 1 ∧
    canonicalSpanL idEngine 1 0 exSession.snippet = some (0, 3) ∧
    0 ≤ exChange.startPos ∧ exChange.startPos ≤ exChange.endPos ∧
    exChange.endPos ≤ 3 ∧
    ((SnippetSession.start idEngine 1 "$\x7b1:foo\x7d and $\x7b1:foo\x7d").1.text =
        renderMarkers idEngine
          (SnippetSession.start idEngine 1
            "$\x7b1:foo\x7d and $\x7b1:foo\x7d").1.snippet ∧
      exSynced.text = renderMarkers idEngine exSynced.snippet) :=
  ⟨rfl, rfl, rfl, rfl, by decide, by decide, by decide,
    render_invariant idEngine 1 "$\x7b1:foo\x7d and $\x7b1:foo\x7d" exSession
      exChange 1 0 3 rfl rfl rfl rfl (by decide) (by decide) (by decide)⟩

/-- **C4.** Mirror propagation: after a `synchronizeUpdatedPlaceholders`
step for an edit wholly inside the canonical mirror's span, every
placeholder in the whole tree (at any nesting depth) carrying the
active index holds exactly the edited plain-text value as its content,
and any placeholder holding a plain-text value renders it through its
own transform, so every mirror of that index renders the edited value
passed through its own transform. -/
theorem mirror_propagation (E : TransformEngine) (s : SnippetSession)
    (c : TextChange) (a st en : Nat)
    (hAct : s.isActive = true) (hCur : s.current = some a)
    (hSpan : canonicalSpanL E a 0 s.snippet = some (st, en))
    (h1 : st ≤ c.startPos) (h2 : c.startPos ≤ c.endPos) (h3 : c.endPos ≤ en) :
    mirrorsSetL a
      (replaceRange ((s.text.drop st).take (en - st)) (c.startPos - st)
        (c.endPos - st) c.newText)
      (s.synchronizeUpdatedPlaceholders E c).snippet = true ∧
    ∀ (F : TransformEngine) (j : Nat) (v : List Char) (cs : List (List Char))
      (tr : Option Transform),
      renderMarker F (.placeholder j [.text v] cs tr) = applyTransform F tr v := by
  constructor
  · rw [synchronize_active_eq E s c a st en hAct hCur hSpan h1 h2 h3]
    exact mirrorsSetL_update a _ s.snippet
  · intro F j v cs tr
    exact renderMarker_mirror_set F j v cs tr

/-- Witness for C4: in the nested template
`$\x7b1:foo\x7d$\x7b2:x$\x7b1:foo\x7d\x7d` the second mirror of
tabstop 1 sits inside tabstop 2; editing the canonical span to `bar`
yields text and render `barxbar` (and `bar and bar` for the flat
template), with every mirror of index 1 set to the edited value. -/
theorem mirror_propagation_witness :
    ex2Session.isActive = true ∧
    ex2Session.current = some 1 ∧
    canonicalSpanL idEngine 1 0 ex2Session.snippet = some (0, 3) ∧
    0 ≤ ex2Change.startPos ∧ ex2Change.startPos ≤ ex2Change.endPos ∧
    ex2Change.endPos ≤ 3 ∧
    exSynced.text = "bar and bar".data ∧
    ex2Synced.text = "barxbar".data ∧
    renderMarkers idEngine ex2Synced.snippet = "barxbar".data ∧
    mirrorsSetL 1
      (replaceRange ((ex2Session.text.drop 0).take (3 - 0))
        (ex2Change.startPos - 0) (ex2Change.endPos - 0) ex2Change.newText)
      ex2Synced.snippet = true :=
  ⟨rfl, rfl, rfl, by decide, by decide, by decide, by decide, by decide, by decide,
    (mirror_propagation idEngine ex2Session ex2Change 1 0 3 rfl rfl rfl
      (by decide) (by decide) (by decide)).1⟩

end Coc
